import Mathlib

/-!
Verification of the Huffman coding codec (`src/huffman.py`).

The program is shallowly embedded: Python strings become `List Char`,
bit strings (strings over the characters `'0'` and `'1'`) become
`List Bool` (`false` = `'0'`, `true` = `'1'`), Python lists become
`List`, dictionaries become association lists kept in insertion order
(Python dictionaries iterate in insertion order), and failure points
(uncaught exceptions) become `Except HErr`.
-/

set_option maxRecDepth 100000

namespace Huffman

/-- Failure kinds.  The first group models the Python exceptions the
embedded code can actually raise (`IndexError` from `list.pop` on an
empty list, `KeyError` from a dictionary lookup, `ValueError` from
`int(s, 2)` on an empty string, `OverflowError` from `int.to_bytes`,
`UnicodeDecodeError` from `bytes.decode`, `json.JSONDecodeError` from
`json.loads`).  The last three are the error kinds named by the
specification; the source never defines or raises them, and they are
present only so that the specification's statements can be written
down. -/
inductive HErr where
  | indexError
  | keyError
  | valueError
  | overflowError
  | unicodeError
  | jsonError
  | emptyInput
  | truncatedBuffer
  | unmatchedCode
deriving DecidableEq, Repr

/-- `TreeNode` (huffman.py lines 7-15).  In the program a node either
holds a character and no children (a leaf, built at line 111) or holds
`char = None` and two children (built at lines 54-56), so the Python
class is embedded as a two-constructor inductive. -/
inductive TreeNode where
  | leaf (freq : Nat) (c : Char)
  | node (freq : Nat) (left : TreeNode) (right : TreeNode)
deriving DecidableEq, Repr

/-- The `freq` field of a `TreeNode`. -/
def TreeNode.freq : TreeNode → Nat
  | .leaf f _ => f
  | .node f _ _ => f

/-- `build_frequency`'s per-character update (huffman.py lines 41-45):
increment the count if the character is present, else append it with
count 1 (Python dictionaries keep insertion order, so a first
occurrence goes to the end). -/
def addChar (freq : List (Char × Nat)) (c : Char) : List (Char × Nat) :=
  if freq.any (fun p => p.1 = c) then
    freq.map (fun p => if p.1 = c then (p.1, p.2 + 1) else p)
  else
    freq ++ [(c, 1)]

/-- `build_frequency` (huffman.py lines 39-46). -/
def build_frequency (text : List Char) : List (Char × Nat) :=
  text.foldl addChar []

/-- One insertion step of the stable descending sort at huffman.py
line 107: a new item goes after every earlier item whose count is at
least as large, so equal counts keep their original order (Python's
`sorted` is stable, also with `reverse = True`). -/
def insertDesc (x : Char × Nat) : List (Char × Nat) → List (Char × Nat)
  | [] => [x]
  | y :: ys => if y.2 < x.2 then x :: y :: ys else y :: insertDesc x ys

/-- `sorted(frequency.items(), key=lambda kv: kv[1], reverse=True)`
(huffman.py line 107) as a stable insertion sort by descending count. -/
def sortDesc (l : List (Char × Nat)) : List (Char × Nat) :=
  l.foldl (fun acc x => insertDesc x acc) []

/-- The stack of leaf nodes built at huffman.py lines 109-112, one
leaf per frequency-table entry, in table order. -/
def initStack (freq : List (Char × Nat)) : List TreeNode :=
  freq.map (fun p => TreeNode.leaf p.2 p.1)

/-- One iteration of the loop in `build_huffman_tree` (huffman.py
lines 49-58): `node_1 = stack.pop()` takes the last element, `node_2 =
stack.pop()` the new last element; the merged node has `left = node_1`,
`right = node_2` and the summed frequency, and `stack.insert(0, merged)`
puts it at the front. -/
def hstep (stack : List TreeNode) : List TreeNode :=
  match stack.reverse with
  | n1 :: n2 :: rest => TreeNode.node (n1.freq + n2.freq) n1 n2 :: rest.reverse
  | _ => stack

theorem hstep_length (s : List TreeNode) (h : 2 ≤ s.length) :
    (hstep s).length = s.length - 1 := by
  unfold hstep
  match hr : s.reverse with
  | [] =>
    have : s.length = 0 := by simpa using congrArg List.length hr
    omega
  | [n1] =>
    have : s.length = 1 := by simpa using congrArg List.length hr
    omega
  | n1 :: n2 :: rest =>
    have hl : s.length = rest.length + 2 := by
      have := congrArg List.length hr
      simpa using this
    simp [hl]

/-- The `while len(stack) > 1` loop of `build_huffman_tree`
(huffman.py lines 49-58), with a fuel bound making the recursion
structural; each iteration shortens the stack by one, so an initial
fuel of the stack's length always suffices. -/
def buildLoop : Nat → List TreeNode → List TreeNode
  | 0, s => s
  | fuel + 1, s => if s.length ≤ 1 then s else buildLoop fuel (hstep s)

/-- `build_huffman_tree` (huffman.py lines 48-59): repeat `hstep`
while more than one node remains. -/
def build_huffman_tree (stack : List TreeNode) : List TreeNode :=
  buildLoop stack.length stack

theorem build_huffman_tree_of_small (s : List TreeNode)
    (h : s.length ≤ 1) : build_huffman_tree s = s := by
  unfold build_huffman_tree
  match hl : s.length with
  | 0 => rfl
  | 1 => simp [buildLoop, hl]
  | n + 2 => omega

theorem build_huffman_tree_step (s : List TreeNode)
    (h : 2 ≤ s.length) : build_huffman_tree s = build_huffman_tree (hstep s) := by
  unfold build_huffman_tree
  match hl : s.length with
  | 0 => omega
  | 1 => omega
  | n + 2 =>
    have hs : (hstep s).length = n + 1 := by
      rw [hstep_length s (by omega), hl]
      omega
    rw [hs]
    show (if s.length ≤ 1 then s else buildLoop (n + 1) (hstep s)) = _
    rw [if_neg (by omega)]

/-- `Mapping.map` (huffman.py lines 28-36): depth-first walk recording
the accumulated bit path at each leaf, `"0"` on the left branch, `"1"`
on the right, left subtree first (so the association list is in the
dictionary's insertion order). -/
def mapCodes : TreeNode → List Bool → List (Char × List Bool)
  | .leaf _ c, code => [(c, code)]
  | .node _ l r, code => mapCodes l (code ++ [false]) ++ mapCodes r (code ++ [true])

/-- `Mapping.create_mapping` (huffman.py lines 23-26): `self.tree.pop()`
takes the last element of the list returned by `build_huffman_tree`
and raises `IndexError` when that list is empty. -/
def create_mapping (tree : List TreeNode) : Except HErr (List (Char × List Bool)) :=
  match tree.getLast? with
  | none => .error .indexError
  | some root => .ok (mapCodes root [])

/-- Dictionary lookup in `mapping_dict`. -/
def lookupCode (md : List (Char × List Bool)) (c : Char) : Option (List Bool) :=
  (md.find? (fun p => p.1 = c)).map (fun p => p.2)

/-- `encode_text` (huffman.py lines 61-65): concatenate the code of
every character; a missing key would raise `KeyError` (`none` here). -/
def encode_text : List Char → List (Char × List Bool) → Option (List Bool)
  | [], _ => some []
  | c :: cs, md => do
    let code ← lookupCode md c
    let rest ← encode_text cs md
    pure (code ++ rest)

/-- Hexadecimal digit character, lowercase, as CPython's `\uXXXX`
escapes print it. -/
def hexDig (n : Nat) : Char :=
  if n < 10 then Char.ofNat (48 + n) else Char.ofNat (87 + n)

/-- Modelled from the library behaviour of `json.dumps` (default
`ensure_ascii=True`): one character of a JSON string value, escaped.
Characters above U+FFFF would be written as surrogate pairs; the codec
is only ever evaluated below that range here. -/
def escapeChar (c : Char) : List Char :=
  if c = '"' then ['\\', '"']
  else if c = '\\' then ['\\', '\\']
  else if c = Char.ofNat 8 then ['\\', 'b']
  else if c = Char.ofNat 9 then ['\\', 't']
  else if c = Char.ofNat 10 then ['\\', 'n']
  else if c = Char.ofNat 12 then ['\\', 'f']
  else if c = Char.ofNat 13 then ['\\', 'r']
  else if c.toNat < 32 ∨ 126 < c.toNat then
    ['\\', 'u', hexDig (c.toNat / 4096 % 16), hexDig (c.toNat / 256 % 16),
     hexDig (c.toNat / 16 % 16), hexDig (c.toNat % 16)]
  else [c]

/-- A code (list of bits) printed as a string of `'0'`/`'1'`
characters, as the reverse-mapping dictionary keys are stored. -/
def bitsToStr (bs : List Bool) : List Char :=
  bs.map (fun b => if b then '1' else '0')

/-- One `"code": "char"` entry of the JSON dump. -/
def jsonPair (p : List Bool × Char) : List Char :=
  '"' :: bitsToStr p.1 ++ '"' :: ':' :: ' ' :: '"' :: escapeChar p.2 ++ ['"']

/-- Interleave `", "` between entries (the default `json.dumps`
item separator). -/
def joinComma : List (List Char) → List Char
  | [] => []
  | [x] => x
  | x :: y :: rest => x ++ ',' :: ' ' :: joinComma (y :: rest)

/-- Modelled from the library behaviour of `json.dumps` at huffman.py
line 70 on the reverse mapping dictionary: `{"code": "char", ...}`
with the default separators. -/
def json_dumps (rd : List (List Bool × Char)) : List Char :=
  '{' :: joinComma (rd.map jsonPair) ++ ['}']

/-- `.encode('utf-8')` on the JSON text.  `json.dumps` with
`ensure_ascii=True` only emits ASCII characters, for which UTF-8 is
the identity on code points. -/
def strBytes (s : List Char) : List Nat :=
  s.map Char.toNat

/-- One byte as eight bits, most significant first (the bit order of
`bitstring.BitArray(bytes).bin`). -/
def byteToBits (n : Nat) : List Bool :=
  (List.range 8).map (fun i => Nat.testBit n (7 - i))

/-- A byte sequence as a bit sequence. -/
def bytesToBits (bs : List Nat) : List Bool :=
  (bs.map byteToBits).flatten

/-- `encode_mapping` (huffman.py lines 67-73): JSON-dump the reverse
dictionary, encode as UTF-8 bytes, reinterpret as bits. -/
def encode_mapping (rd : List (List Bool × Char)) : List Bool :=
  bytesToBits (strBytes (json_dumps rd))

/-- The binary digits of `n`, least significant first, empty for 0,
with a fuel bound making the recursion structural (a number has at
most as many binary digits as its own value, so fuel `n` suffices). -/
def natBitsF : Nat → Nat → List Bool
  | 0, _ => []
  | fuel + 1, n => if n = 0 then [] else decide (n % 2 = 1) :: natBitsF fuel (n / 2)

/-- The binary digits of `n`, least significant first. -/
def natBits (n : Nat) : List Bool :=
  natBitsF n n

/-- `'{0:b}'.format n`, as bits, most significant first, `"0"` for 0. -/
def toBinary (n : Nat) : List Bool :=
  if n = 0 then [false] else (natBits n).reverse

/-- `'{0:016b}'.format n` (huffman.py line 78): zero-pad on the left
to a minimum width of 16 — Python's `format` never truncates, so a
value of 2^16 or more yields more than 16 characters. -/
def formatBin16 (n : Nat) : List Bool :=
  List.replicate (16 - (toBinary n).length) false ++ toBinary n

/-- `'{0:08b}'.format n` (huffman.py line 87): zero-pad on the left
to a minimum width of 8. -/
def formatBin8 (n : Nat) : List Bool :=
  List.replicate (8 - (toBinary n).length) false ++ toBinary n

/-- `encode_text_tree` (huffman.py lines 75-79): 16-bit length of the
encoded tree, then the encoded text, then the encoded tree. -/
def encode_text_tree (encodedText encodedTree : List Bool) : List Bool :=
  formatBin16 encodedTree.length ++ encodedText ++ encodedTree

/-- `pad_encoded_text_tree` (huffman.py lines 81-89): append
`8 - len % 8` zero bits, then prepend that count as an 8-bit field. -/
def pad_encoded_text_tree (s : List Bool) : List Bool :=
  formatBin8 (8 - s.length % 8) ++ (s ++ List.replicate (8 - s.length % 8) false)

/-- The core of `compress` (huffman.py lines 106-129), from the text
already read and stripped to the bit string written to the output
file: frequency analysis, stable descending sort, tree build, code
assignment (`create_mapping` pops from the tree list and raises
`IndexError` on an empty text), text and table encoding, framing and
padding. -/
def compressBits (text : List Char) : Except HErr (List Bool) := do
  let freq := sortDesc (build_frequency text)
  let htree := build_huffman_tree (initStack freq)
  let md ← create_mapping htree
  let rd := md.map (fun p => (p.2, p.1))
  match encode_text text md with
  | none => .error .keyError
  | some et =>
    .ok (pad_encoded_text_tree (encode_text_tree et (encode_mapping rd)))

/-- Modelled from the library behaviour of `str.rstrip()`: the exact
set of code points CPython's `Py_UNICODE_ISSPACE` accepts, which
`rstrip` with no argument strips — U+0009–U+000D, U+001C–U+001F,
space, U+0085, U+00A0, U+1680, U+2000–U+200A, U+2028, U+2029, U+202F,
U+205F and U+3000. -/
def isSpace (c : Char) : Bool :=
  (9 ≤ c.toNat && c.toNat ≤ 13) ||
  (28 ≤ c.toNat && c.toNat ≤ 31) ||
  c.toNat = 32 || c.toNat = 133 || c.toNat = 160 || c.toNat = 0x1680 ||
  (0x2000 ≤ c.toNat && c.toNat ≤ 0x200a) ||
  c.toNat = 0x2028 || c.toNat = 0x2029 ||
  c.toNat = 0x202f || c.toNat = 0x205f || c.toNat = 0x3000

/-- `text.rstrip()` (huffman.py line 100): remove trailing whitespace. -/
def rstrip (s : List Char) : List Char :=
  (s.reverse.dropWhile isSpace).reverse

/-- `compress` from the file contents to the output bits (huffman.py
lines 97-130): the text is right-stripped before any encoding. -/
def compressFile (raw : List Char) : Except HErr (List Bool) :=
  compressBits (rstrip raw)

/-- `int(s, 2)` on a bit string: most-significant bit first. -/
def bitsToNat (bs : List Bool) : Nat :=
  bs.foldl (fun a b => 2 * a + (if b then 1 else 0)) 0

/-- `remove_padding_bits` (huffman.py lines 136-146).  `int(s[:8], 2)`
raises `ValueError` only when the slice is empty; `s[:-p]` removes the
last `p` characters, except that `p = 0` gives `s[:0] = ""` (Python's
negative-zero slice), and `p` larger than the length also gives `""`. -/
def remove_padding_bits (s : List Bool) : Except HErr (List Bool) :=
  if s.isEmpty then .error .valueError
  else
    let p := bitsToNat (s.take 8)
    let rest := s.drop 8
    .ok (if p = 0 then [] else rest.take (rest.length - p))

/-- `get_encoded_text_mapping` (huffman.py lines 148-162).  With
`n = int(s[:16], 2)`, the encoded tree is `s[16:][-n:]` and the
encoded text `s[16:][:-n]`; `n = 0` makes the tree slice the whole
remainder and the text slice empty, and `n` larger than the remainder
makes the tree slice the whole remainder as well. -/
def get_encoded_text_mapping (s : List Bool) :
    Except HErr (List Bool × List Bool) :=
  if s.isEmpty then .error .valueError
  else
    let n := bitsToNat (s.take 16)
    let rest := s.drop 16
    if n = 0 then .ok ([], rest)
    else .ok (rest.take (rest.length - n), rest.drop (rest.length - n))

/-- `v.to_bytes(nb, byteorder='big')`: the `nb` big-endian bytes of
`v` (the caller checks `v < 256 ^ nb`, as `to_bytes` raises
`OverflowError` otherwise). -/
def natToBytes (v nb : Nat) : List Nat :=
  (List.range nb).map (fun i => v / 256 ^ (nb - 1 - i) % 256)

/-- Modelled from the library behaviour of `bytes.decode('utf-8')`,
restricted to ASCII byte sequences (every byte sequence the verified
inputs produce is ASCII, since `json.dumps` emits ASCII only);
multi-byte UTF-8 sequences are not modelled and are rejected. -/
def bytesToChars (bs : List Nat) : Option (List Char) :=
  if bs.all (fun b => b < 128) then some (bs.map Char.ofNat) else none

/-- One escape sequence of a JSON string, inverted. -/
def unescape : Char → Option Char
  | '"' => some '"'
  | '\\' => some '\\'
  | '/' => some '/'
  | 'b' => some (Char.ofNat 8)
  | 't' => some (Char.ofNat 9)
  | 'n' => some (Char.ofNat 10)
  | 'f' => some (Char.ofNat 12)
  | 'r' => some (Char.ofNat 13)
  | _ => none

/-- Parse a dictionary key up to its closing quote.  Keys of the
embedded table are bit strings over `'0'` and `'1'`; any other key
character is rejected as a parse failure. -/
def parseKey : List Char → Option (List Bool × List Char)
  | '"' :: rest => some ([], rest)
  | '0' :: rest => (parseKey rest).map (fun p => (false :: p.1, p.2))
  | '1' :: rest => (parseKey rest).map (fun p => (true :: p.1, p.2))
  | _ => none

/-- Parse a single-character string value together with its closing
quote. -/
def parseVal : List Char → Option (Char × List Char)
  | '\\' :: e :: '"' :: rest => (unescape e).map (fun c => (c, rest))
  | c :: '"' :: rest => if c = '"' ∨ c = '\\' then none else some (c, rest)
  | _ => none

/-- Parse one `"code": "char"` entry. -/
def parsePair (s : List Char) : Option ((List Bool × Char) × List Char) :=
  match s with
  | '"' :: rest => do
    let (k, r1) ← parseKey rest
    match r1 with
    | ':' :: ' ' :: '"' :: r2 => do
      let (v, r3) ← parseVal r2
      some ((k, v), r3)
    | _ => none
  | _ => none

/-- Parse the comma-separated entries up to the closing brace, with
fuel bounding the recursion by the input length. -/
def parsePairsF : Nat → List Char → Option (List (List Bool × Char))
  | 0, _ => none
  | fuel + 1, s => do
    let (p, r) ← parsePair s
    match r with
    | ['}'] => some [p]
    | ',' :: ' ' :: r2 => (parsePairsF fuel r2).map (fun l => p :: l)
    | _ => none

/-- Modelled from the library behaviour of `json.loads` at huffman.py
line 168, specialised to the dictionary grammar `json.dumps` emits for
the embedded table (string keys over the characters `'0'` and `'1'`,
single-character string values, canonical `", "` and `": "`
separators); any other JSON text is rejected as a parse failure. -/
def json_loads (s : List Char) : Option (List (List Bool × Char)) :=
  match s with
  | ['{', '}'] => some []
  | '{' :: rest => parsePairsF s.length rest
  | _ => none

/-- `decode_mapping` (huffman.py lines 164-170): `int(em, 2)` raises
`ValueError` on an empty string, `to_bytes(len(em) // 8, 'big')`
raises `OverflowError` when the value does not fit, then the bytes are
UTF-8-decoded and JSON-parsed. -/
def decode_mapping (em : List Bool) :
    Except HErr (List (List Bool × Char)) :=
  if em.isEmpty then .error .valueError
  else
    let v := bitsToNat em
    let nb := em.length / 8
    if 256 ^ nb ≤ v then .error .overflowError
    else
      match bytesToChars (natToBytes v nb) with
      | none => .error .unicodeError
      | some s =>
        match json_loads s with
        | none => .error .jsonError
        | some d => .ok d

/-- Lookup in the reverse mapping dictionary (`code in reverse_dict`
followed by `reverse_dict[code]`). -/
def lookupSym (rd : List (List Bool × Char)) (k : List Bool) : Option Char :=
  (rd.find? (fun p => p.1 = k)).map (fun p => p.2)

/-- The loop of `decode_bits` (huffman.py lines 177-181) with its
state made explicit: the output built so far and the accumulated
candidate code.  Each bit is appended to the accumulator; exactly when
the accumulator is a dictionary key, its character is emitted and the
accumulator is reset to empty. -/
def decodeLoop (rd : List (List Bool × Char)) :
    List Bool → List Char → List Bool → List Char × List Bool
  | [], out, code => (out, code)
  | b :: bs, out, code =>
    match lookupSym rd (code ++ [b]) with
    | some ch => decodeLoop rd bs (out ++ [ch]) []
    | none => decodeLoop rd bs out (code ++ [b])

/-- `decode_bits` (huffman.py lines 173-182): run the loop from the
empty output and empty accumulator and return the decoded text,
discarding the final accumulator. -/
def decode_bits (et : List Bool) (rd : List (List Bool × Char)) : List Char :=
  (decodeLoop rd et [] []).1

/-- The core of `decompress` (huffman.py lines 189-196), from the bits
of the compressed file to the decoded text. -/
def decompressBits (buf : List Bool) : Except HErr (List Char) := do
  let b ← remove_padding_bits buf
  let (et, em) ← get_encoded_text_mapping b
  let rd ← decode_mapping em
  .ok (decode_bits et rd)

/-- The full pipeline: compress a text, then decompress the produced
buffer. -/
def roundTrip (text : List Char) : Except HErr (List Char) :=
  (compressBits text).bind decompressBits

/-- Removal of the last byte of a buffer (the truncation scenario of
the malformed-input property). -/
def dropLastByte (l : List Bool) : List Bool :=
  l.take (l.length - 8)

instance {ε α : Type} [DecidableEq ε] [DecidableEq α] :
    DecidableEq (Except ε α) := fun x y =>
  match x, y with
  | .ok a, .ok b =>
    if h : a = b then .isTrue (by rw [h]) else .isFalse (by simp [h])
  | .error a, .error b =>
    if h : a = b then .isTrue (by rw [h]) else .isFalse (by simp [h])
  | .ok _, .error _ => .isFalse (by simp)
  | .error _, .ok _ => .isFalse (by simp)

/-- C1: the full pipeline is not the identity — compressing the
single-distinct-symbol text `"aaaa"` and decompressing the produced
buffer yields the empty text, not `"aaaa"` (the leaf root receives the
empty code, so the encoded text is empty and nothing is decoded). -/
theorem claim1_roundtrip_fails_on_single_symbol :
    roundTrip ['a', 'a', 'a', 'a'] = Except.ok ([] : List Char) ∧
      ([] : List Char) ≠ ['a', 'a', 'a', 'a'] := by
  constructor
  · decide
  · decide

/-- C2: on the input `"aaaa"` the Huffman tree is the single leaf
`('a', 4)`; `Mapping.map` records the empty bit string (not a one-bit
code) as the code of `'a'`, the encoded text is therefore empty, and
decoding returns the empty text instead of `"aaaa"`. -/
theorem claim2_leaf_root_gets_empty_code :
    build_huffman_tree (initStack (sortDesc (build_frequency
        ['a', 'a', 'a', 'a']))) = [TreeNode.leaf 4 'a'] ∧
      mapCodes (TreeNode.leaf 4 'a') [] = [('a', ([] : List Bool))] ∧
      encode_text ['a', 'a', 'a', 'a'] [('a', [])] = some [] ∧
      decode_bits [] [(([] : List Bool), 'a')] = [] := by
  refine ⟨by decide, rfl, by decide, rfl⟩

/-- C4 (counterexample): compressing the empty text does not fail with
the specification's `EmptyInputError`. -/
theorem claim4_counterexample :
    compressBits [] ≠ Except.error HErr.emptyInput := by
  decide

/-- C4 (amended): compressing the empty text fails — with the generic
`IndexError` raised by `self.tree.pop()` on the empty working list in
`Mapping.create_mapping`, producing no output. -/
theorem claim4_amended :
    compressBits [] = Except.error HErr.indexError := by
  decide

/-- C9 (counterexample): decoding the valid buffer for `"ab"` with its
last byte removed fails with neither `TruncatedBufferError` nor
`UnmatchedCodeError` (it fails with the `OverflowError` raised by
`int.to_bytes` on the shifted table slice). -/
theorem claim9_counterexample :
    (compressBits ['a', 'b']).bind (fun b => decompressBits (dropLastByte b)) ≠
        Except.error HErr.truncatedBuffer ∧
      (compressBits ['a', 'b']).bind (fun b => decompressBits (dropLastByte b)) ≠
        Except.error HErr.unmatchedCode := by
  constructor
  · decide
  · decide

/-- C9 (amended, concrete scope): the buffer produced for `"ab"` is
valid — untruncated it decodes back to `"ab"` — and decoding it with
its last byte removed reports a failure, the `OverflowError` raised by
`int.to_bytes` while rebuilding the embedded table from the shifted
slice, rather than silently returning a symbol sequence.  The claim's
named `TruncatedBufferError` and `UnmatchedCodeError` do not exist in
the code, and whether every truncated valid buffer fails with a
reported error is not settled here. -/
theorem claim9_amended :
    (compressBits ['a', 'b']).bind (fun b => decompressBits (dropLastByte b)) =
        Except.error HErr.overflowError ∧
      roundTrip ['a', 'b'] = Except.ok ['a', 'b'] := by
  constructor
  · decide
  · decide

theorem decodeLoop_acc (rd : List (List Bool × Char)) :
    ∀ (bs : List Bool) (out : List Char) (code : List Bool),
      (code = [] ∨ lookupSym rd code = none) →
      ((decodeLoop rd bs out code).2 = [] ∨
        lookupSym rd (decodeLoop rd bs out code).2 = none) := by
  intro bs
  induction bs with
  | nil => intro out code h; exact h
  | cons b bs ih =>
    intro out code _h
    cases hl : lookupSym rd (code ++ [b]) with
    | some ch =>
      have he : decodeLoop rd (b :: bs) out code = decodeLoop rd bs (out ++ [ch]) [] := by
        simp [decodeLoop, hl]
      rw [he]
      exact ih _ _ (Or.inl rfl)
    | none =>
      have he : decodeLoop rd (b :: bs) out code = decodeLoop rd bs out (code ++ [b]) := by
        simp [decodeLoop, hl]
      rw [he]
      exact ih _ _ (Or.inr hl)

/-- C3 (amended): the decoder scans one bit at a time, emitting a
symbol and resetting its accumulator exactly when the accumulated bits
match a table entry; when the bitstream is exhausted the accumulator
is either empty or matches no table entry, and `decode_bits` then
returns the symbols decoded so far, silently discarding the leftover
accumulator — it is a total function and never fails with an
`UnmatchedCodeError` (no such error exists in the code). -/
theorem claim3_amended (et : List Bool) (rd : List (List Bool × Char)) :
    decode_bits et rd = (decodeLoop rd et [] []).1 ∧
      ((decodeLoop rd et [] []).2 = [] ∨
        lookupSym rd (decodeLoop rd et [] []).2 = none) :=
  ⟨rfl, decodeLoop_acc rd et [] [] (Or.inl rfl)⟩

/-- C3 (counterexample): on the encoded text `"01"` with the table
`{"0": "a"}`, the bitstream is exhausted with the non-empty,
non-matching accumulator `"1"`, yet `decode_bits` returns the result
`"a"` instead of failing. -/
theorem claim3_counterexample :
    decodeLoop [([false], 'a')] [false, true] [] [] = (['a'], [true]) ∧
      ([true] : List Bool) ≠ [] ∧
      lookupSym [([false], 'a')] [true] = none ∧
      decode_bits [false, true] [([false], 'a')] = ['a'] := by
  refine ⟨by decide, by decide, by decide, by decide⟩

theorem natBitsF_eq_of_le (fuel1 : Nat) :
    ∀ (fuel2 n : Nat), n ≤ fuel1 → n ≤ fuel2 →
      natBitsF fuel1 n = natBitsF fuel2 n := by
  induction fuel1 with
  | zero =>
    intro fuel2 n h1 _h2
    have hn : n = 0 := by omega
    subst hn
    cases fuel2 <;> simp [natBitsF]
  | succ f ih =>
    intro fuel2 n h1 h2
    by_cases hn : n = 0
    · subst hn
      cases fuel2 <;> simp [natBitsF]
    · obtain ⟨f2, rfl⟩ : ∃ f2, fuel2 = f2 + 1 := by
        cases fuel2 with
        | zero => omega
        | succ f2 => exact ⟨f2, rfl⟩
      simp only [natBitsF, if_neg hn]
      rw [ih f2 (n / 2) (by omega) (by omega)]

theorem natBits_succ (n : Nat) (h : n ≠ 0) :
    natBits n = decide (n % 2 = 1) :: natBits (n / 2) := by
  obtain ⟨m, rfl⟩ : ∃ m, n = m + 1 := by
    cases n with
    | zero => omega
    | succ m => exact ⟨m, rfl⟩
  show natBitsF (m + 1) (m + 1) = _
  simp only [natBitsF, if_neg h]
  rw [natBitsF_eq_of_le m ((m + 1) / 2) ((m + 1) / 2) (by omega) (by omega)]
  rfl

theorem bitsToNat_append_bit (l : List Bool) (b : Bool) :
    bitsToNat (l ++ [b]) = 2 * bitsToNat l + (if b then 1 else 0) := by
  unfold bitsToNat
  rw [List.foldl_append]
  rfl

theorem bitsToNat_natBits_reverse (n : Nat) :
    bitsToNat (natBits n).reverse = n := by
  induction n using Nat.strong_induction_on with
  | _ n ih =>
    by_cases hn : n = 0
    · subst hn; rfl
    · rw [natBits_succ n hn, List.reverse_cons, bitsToNat_append_bit,
        ih (n / 2) (Nat.div_lt_self (by omega) (by omega))]
      rcases Nat.mod_two_eq_zero_or_one n with h2 | h2 <;> simp [h2] <;> omega

theorem bitsToNat_toBinary (n : Nat) : bitsToNat (toBinary n) = n := by
  unfold toBinary
  by_cases hn : n = 0
  · simp [hn]; rfl
  · rw [if_neg hn]; exact bitsToNat_natBits_reverse n

theorem natBits_length_le (k : Nat) :
    ∀ n, n < 2 ^ k → (natBits n).length ≤ k := by
  induction k with
  | zero =>
    intro n h
    have hn : n = 0 := by omega
    subst hn
    simp [natBits, natBitsF]
  | succ k ih =>
    intro n h
    by_cases hn : n = 0
    · subst hn; simp [natBits, natBitsF]
    · rw [natBits_succ n hn]
      have hdiv : n / 2 < 2 ^ k := by
        apply Nat.div_lt_of_lt_mul
        rw [Nat.pow_succ] at h
        omega
      have := ih (n / 2) hdiv
      simp only [List.length_cons]
      omega

theorem toBinary_length_le (k n : Nat) (h1 : 1 ≤ k) (h2 : n < 2 ^ k) :
    (toBinary n).length ≤ k := by
  unfold toBinary
  by_cases hn : n = 0
  · simp [hn]; omega
  · rw [if_neg hn, List.length_reverse]
    exact natBits_length_le k n h2

theorem bitsToNat_replicate_false (k : Nat) :
    ∀ l : List Bool, bitsToNat (List.replicate k false ++ l) = bitsToNat l := by
  induction k with
  | zero => intro l; rfl
  | succ k ih =>
    intro l
    show bitsToNat (false :: (List.replicate k false ++ l)) = _
    unfold bitsToNat
    rw [List.foldl_cons]
    exact ih l

theorem bitsToNat_formatBin8 (n : Nat) : bitsToNat (formatBin8 n) = n := by
  unfold formatBin8
  rw [bitsToNat_replicate_false, bitsToNat_toBinary]

theorem formatBin8_length (n : Nat) (h : n < 256) :
    (formatBin8 n).length = 8 := by
  unfold formatBin8
  have h256 : (256 : Nat) = 2 ^ 8 := by norm_num
  have hlen : (toBinary n).length ≤ 8 :=
    toBinary_length_le 8 n (by omega) (by omega)
  simp only [List.length_append, List.length_replicate]
  omega

/-- C5: for every bit string the encoder pads, the number of padding
bits is `8 - len % 8`, which lies in the range 1 to 8 (an aligned
stream receives a full 8-bit pad); the output is exactly the 8-bit pad
count field, the original bits, and that many zero padding bits at the
tail; the total bit length is a multiple of 8; and the 8-bit field
decodes back to the exact pad count. -/
theorem claim5_padding_invariant (s : List Bool) :
    1 ≤ 8 - s.length % 8 ∧ 8 - s.length % 8 ≤ 8 ∧
      pad_encoded_text_tree s =
        formatBin8 (8 - s.length % 8) ++ s ++
          List.replicate (8 - s.length % 8) false ∧
      (pad_encoded_text_tree s).length % 8 = 0 ∧
      bitsToNat ((pad_encoded_text_tree s).take 8) = 8 - s.length % 8 := by
  have hmod : s.length % 8 < 8 := Nat.mod_lt _ (by omega)
  have hfl : (formatBin8 (8 - s.length % 8)).length = 8 :=
    formatBin8_length _ (by omega)
  refine ⟨by omega, by omega, ?_, ?_, ?_⟩
  · unfold pad_encoded_text_tree
    rw [List.append_assoc]
  · unfold pad_encoded_text_tree
    simp only [List.length_append, List.length_replicate, hfl]
    omega
  · unfold pad_encoded_text_tree
    rw [List.take_left' hfl, bitsToNat_formatBin8]

/-- Whether the two nodes a `build_huffman_tree` iteration is about to
remove (the two tail nodes of the working sequence) are of
currently-lowest weight among all remaining nodes. -/
def lowestTwoRemoved (s : List TreeNode) : Bool :=
  match s.reverse with
  | n1 :: n2 :: rest => rest.all (fun n => n1.freq ≤ n.freq && n2.freq ≤ n.freq)
  | _ => true

/-- C6 (counterexample): starting from the descending leaves of
`"aaaaabbbbcd"` (weights 5, 4, 1, 1), the first iteration merges the
two weight-1 leaves and reinserts the weight-2 node at the front; the
second iteration then removes the weight-4 and weight-5 nodes even
though the weight-2 merged node is still in the working sequence, so
it does not remove the two nodes of currently-lowest weight. -/
theorem claim6_counterexample :
    2 ≤ (hstep (initStack (sortDesc (build_frequency
        ['a', 'a', 'a', 'a', 'a', 'b', 'b', 'b', 'b', 'c', 'd'])))).length ∧
      lowestTwoRemoved (hstep (initStack (sortDesc (build_frequency
        ['a', 'a', 'a', 'a', 'a', 'b', 'b', 'b', 'b', 'c', 'd'])))) = false := by
  refine ⟨by decide, by decide⟩

theorem build_huffman_tree_length_aux :
    ∀ k s, s.length = k → 1 ≤ k → (build_huffman_tree s).length = 1 := by
  intro k
  induction k using Nat.strong_induction_on with
  | _ k ih =>
    intro s hk h1
    by_cases hsmall : s.length ≤ 1
    · rw [build_huffman_tree_of_small s hsmall]
      omega
    · have h2 : 2 ≤ s.length := by omega
      rw [build_huffman_tree_step s h2]
      exact ih (k - 1) (by omega) (hstep s) (by rw [hstep_length s h2]; omega)
        (by omega)

/-- C6 (amended): each iteration of the tree builder removes the two
nodes at the TAIL of the working sequence (which, before the first
merge, are the two lowest-weight leaves of the descending-ordered
stack, but afterwards need not be the two currently-lowest-weight
nodes), merges them into an internal node whose weight is the sum of
the two with left = first removed and right = second removed,
reinserts the merged node at the FRONT of the sequence, and repeats
until exactly one node remains. -/
theorem claim6_amended (s : List TreeNode) :
    (s.length ≤ 1 → build_huffman_tree s = s) ∧
      (∀ n1 n2 rest, s.reverse = n1 :: n2 :: rest →
        hstep s = TreeNode.node (n1.freq + n2.freq) n1 n2 :: rest.reverse ∧
          build_huffman_tree s = build_huffman_tree (hstep s)) ∧
      (1 ≤ s.length → (build_huffman_tree s).length = 1) := by
  refine ⟨build_huffman_tree_of_small s, ?_, ?_⟩
  · intro n1 n2 rest hr
    have h2 : 2 ≤ s.length := by
      have := congrArg List.length hr
      simp at this
      omega
    refine ⟨?_, build_huffman_tree_step s h2⟩
    unfold hstep
    rw [hr]
  · intro h1
    exact build_huffman_tree_length_aux s.length s rfl h1

/-- Witness for C6 (amended) at the stack of two weight-1 leaves. -/
theorem claim6_witness :
    hstep [TreeNode.leaf 1 'a', TreeNode.leaf 1 'b'] =
        [TreeNode.node 2 (TreeNode.leaf 1 'b') (TreeNode.leaf 1 'a')] ∧
      build_huffman_tree [TreeNode.leaf 1 'a', TreeNode.leaf 1 'b'] =
        build_huffman_tree [TreeNode.node 2 (TreeNode.leaf 1 'b') (TreeNode.leaf 1 'a')] ∧
      (build_huffman_tree [TreeNode.leaf 1 'a', TreeNode.leaf 1 'b']).length = 1 := by
  obtain ⟨_, h2, h3⟩ := claim6_amended [TreeNode.leaf 1 'a', TreeNode.leaf 1 'b']
  obtain ⟨ha, hb⟩ := h2 (TreeNode.leaf 1 'b') (TreeNode.leaf 1 'a') [] rfl
  exact ⟨ha, by rw [hb, ha]; rfl, h3 (by decide)⟩

/-- The number of leaves of a tree. -/
def numLeaves : TreeNode → Nat
  | .leaf _ _ => 1
  | .node _ l r => numLeaves l + numLeaves r

/-- `starts a b`: the bit string `a` is an initial segment of the bit
string `b`. -/
def starts (a b : List Bool) : Prop :=
  b.take a.length = a

instance (a b : List Bool) : Decidable (starts a b) :=
  inferInstanceAs (Decidable (b.take a.length = a))

theorem starts_cons (x : Bool) (a b : List Bool) :
    starts (x :: a) (x :: b) ↔ starts a b := by
  simp [starts, List.take_succ_cons]

theorem not_starts_cons_of_ne (x y : Bool) (a b : List Bool) (h : x ≠ y) :
    ¬ starts (x :: a) (y :: b) := by
  intro hs
  have hc : y :: b.take a.length = x :: a := by
    simpa [starts, List.take_succ_cons] using hs
  injection hc with h1 _
  exact h h1.symm

theorem mapCodes_pre (t : TreeNode) : ∀ pre,
    mapCodes t pre = (mapCodes t []).map (fun p => (p.1, pre ++ p.2)) := by
  induction t with
  | leaf f c => intro pre; simp [mapCodes]
  | node f l r ihl ihr =>
    intro pre
    show mapCodes l (pre ++ [false]) ++ mapCodes r (pre ++ [true]) = _
    rw [ihl (pre ++ [false]), ihr (pre ++ [true])]
    show _ = ((mapCodes l ([] ++ [false])) ++ mapCodes r ([] ++ [true])).map _
    rw [List.nil_append, List.nil_append, ihl [false], ihr [true]]
    simp [List.map_map, Function.comp_def, List.append_assoc]

theorem mapCodes_pairwise (t : TreeNode) :
    (mapCodes t []).Pairwise
      (fun p q => ¬ starts p.2 q.2 ∧ ¬ starts q.2 p.2) := by
  induction t with
  | leaf f c => simp [mapCodes]
  | node f l r ihl ihr =>
    show ((mapCodes l ([] ++ [false])) ++ mapCodes r ([] ++ [true])).Pairwise _
    rw [List.nil_append, List.nil_append, mapCodes_pre l [false], mapCodes_pre r [true]]
    apply List.pairwise_append.mpr
    refine ⟨?_, ?_, ?_⟩
    · rw [List.pairwise_map]
      refine ihl.imp ?_
      intro a b hab
      refine ⟨?_, ?_⟩
      · show ¬ starts ([false] ++ a.2) ([false] ++ b.2)
        rw [List.singleton_append, List.singleton_append, starts_cons]
        exact hab.1
      · show ¬ starts ([false] ++ b.2) ([false] ++ a.2)
        rw [List.singleton_append, List.singleton_append, starts_cons]
        exact hab.2
    · rw [List.pairwise_map]
      refine ihr.imp ?_
      intro a b hab
      refine ⟨?_, ?_⟩
      · show ¬ starts ([true] ++ a.2) ([true] ++ b.2)
        rw [List.singleton_append, List.singleton_append, starts_cons]
        exact hab.1
      · show ¬ starts ([true] ++ b.2) ([true] ++ a.2)
        rw [List.singleton_append, List.singleton_append, starts_cons]
        exact hab.2
    · intro a ha b hb
      obtain ⟨a', _, rfl⟩ := List.mem_map.mp ha
      obtain ⟨b', _, rfl⟩ := List.mem_map.mp hb
      constructor
      · show ¬ starts ([false] ++ a'.2) ([true] ++ b'.2)
        rw [List.singleton_append, List.singleton_append]
        exact not_starts_cons_of_ne false true _ _ (by decide)
      · show ¬ starts ([true] ++ b'.2) ([false] ++ a'.2)
        rw [List.singleton_append, List.singleton_append]
        exact not_starts_cons_of_ne true false _ _ (by decide)

/-- C7: for every tree with at least two leaves, the code table the
depth-first assignment produces is prefix-free — no recorded code is
an initial segment of another — and every recorded code has length at
least one. -/
theorem claim7_prefix_freedom (t : TreeNode) (h : 2 ≤ numLeaves t) :
    (mapCodes t []).Pairwise
        (fun p q => ¬ starts p.2 q.2 ∧ ¬ starts q.2 p.2) ∧
      ∀ p ∈ mapCodes t [], 1 ≤ p.2.length := by
  refine ⟨mapCodes_pairwise t, ?_⟩
  match t with
  | .leaf f c => simp [numLeaves] at h
  | .node f l r =>
    intro p hp
    have hform : mapCodes (TreeNode.node f l r) [] =
        (mapCodes l []).map (fun q => (q.1, [false] ++ q.2)) ++
          (mapCodes r []).map (fun q => (q.1, [true] ++ q.2)) := by
      show mapCodes l ([] ++ [false]) ++ mapCodes r ([] ++ [true]) = _
      rw [List.nil_append, List.nil_append, mapCodes_pre l [false],
        mapCodes_pre r [true]]
    rw [hform] at hp
    rcases List.mem_append.mp hp with h' | h'
    · obtain ⟨q, _, rfl⟩ := List.mem_map.mp h'
      simp
    · obtain ⟨q, _, rfl⟩ := List.mem_map.mp h'
      simp

/-- Witness for C7 at the two-leaf tree built from `"ab"`. -/
theorem claim7_witness :
    2 ≤ numLeaves (TreeNode.node 2 (TreeNode.leaf 1 'b') (TreeNode.leaf 1 'a')) ∧
      ((mapCodes (TreeNode.node 2 (TreeNode.leaf 1 'b') (TreeNode.leaf 1 'a')) []).Pairwise
          (fun p q => ¬ starts p.2 q.2 ∧ ¬ starts q.2 p.2) ∧
        ∀ p ∈ mapCodes (TreeNode.node 2 (TreeNode.leaf 1 'b') (TreeNode.leaf 1 'a')) [],
          1 ≤ p.2.length) :=
  ⟨by decide, claim7_prefix_freedom _ (by decide)⟩

theorem mem_insertDesc (x z : Char × Nat) :
    ∀ l, z ∈ insertDesc x l → z = x ∨ z ∈ l := by
  intro l
  induction l with
  | nil =>
    intro h
    simp [insertDesc] at h
    exact Or.inl h
  | cons y ys ih =>
    intro h
    by_cases hc : y.2 < x.2
    · simp only [insertDesc, if_pos hc, List.mem_cons] at h
      rcases h with h | h | h
      · exact Or.inl h
      · exact Or.inr (by simp [h])
      · exact Or.inr (by simp [h])
    · simp only [insertDesc, if_neg hc, List.mem_cons] at h
      rcases h with h | h
      · exact Or.inr (by simp [h])
      · rcases ih h with h' | h'
        · exact Or.inl h'
        · exact Or.inr (by simp [h'])

theorem insertDesc_pairwise (x : Char × Nat) :
    ∀ l, l.Pairwise (fun a b : Char × Nat => b.2 ≤ a.2) →
      (insertDesc x l).Pairwise (fun a b : Char × Nat => b.2 ≤ a.2) := by
  intro l
  induction l with
  | nil => intro _; simp [insertDesc]
  | cons y ys ih =>
    intro h
    rw [List.pairwise_cons] at h
    obtain ⟨hy, hys⟩ := h
    by_cases hc : y.2 < x.2
    · rw [insertDesc, if_pos hc]
      refine List.pairwise_cons.mpr ⟨?_, List.pairwise_cons.mpr ⟨hy, hys⟩⟩
      intro z hz
      rcases List.mem_cons.mp hz with h' | h'
      · rw [h']; exact Nat.le_of_lt hc
      · exact Nat.le_trans (hy z h') (Nat.le_of_lt hc)
    · rw [insertDesc, if_neg hc]
      refine List.pairwise_cons.mpr ⟨?_, ih hys⟩
      intro z hz
      rcases mem_insertDesc x z ys hz with h' | h'
      · rw [h']; omega
      · exact hy z h'

theorem sortDesc_pairwise_aux (l : List (Char × Nat)) :
    ∀ acc, acc.Pairwise (fun a b : Char × Nat => b.2 ≤ a.2) →
      (l.foldl (fun acc x => insertDesc x acc) acc).Pairwise
        (fun a b : Char × Nat => b.2 ≤ a.2) := by
  induction l with
  | nil => intro acc h; exact h
  | cons x xs ih =>
    intro acc h
    exact ih _ (insertDesc_pairwise x acc h)

/-- C8: encoding is a deterministic function of the input — the
embedding models every step of `compress` (frequency counting in
insertion order, the stable sort, the list-based tree build, the
depth-first code assignment, the canonical JSON dump of the table, the
framing and padding) as a pure function, so the same text always
yields the identical bit buffer; and the frequency ordering the sort
produces is descending by count (ties keep first-occurrence order by
the stability of the insertion). -/
theorem claim8_determinism (s : List Char) :
    compressBits s = compressBits s ∧
      (sortDesc (build_frequency s)).Pairwise
        (fun a b : Char × Nat => b.2 ≤ a.2) :=
  ⟨rfl, sortDesc_pairwise_aux (build_frequency s) [] (by simp)⟩

theorem dropWhile_idem (p : Char → Bool) :
    ∀ l : List Char, List.dropWhile p (List.dropWhile p l) = List.dropWhile p l := by
  intro l
  induction l with
  | nil => rfl
  | cons a l ih =>
    by_cases hp : p a
    · rw [List.dropWhile_cons, if_pos hp]
      exact ih
    · rw [List.dropWhile_cons, if_neg hp, List.dropWhile_cons, if_neg hp]

/-- C10 (implicit): `compress` encodes `text.rstrip()` — all trailing
whitespace is removed before frequency analysis and encoding, so a
text and its right-stripped form produce the identical compressed
buffer; the input always splits as the stripped text followed by an
all-whitespace suffix, and the stripped text itself has no trailing
whitespace (stripping is idempotent), so only inputs without trailing
whitespace can come back unchanged from a decode of that buffer. -/
theorem claim10_rstrip_at_interface (raw : List Char) :
    compressFile raw = compressBits (rstrip raw) ∧
      rstrip (rstrip raw) = rstrip raw ∧
      compressFile (rstrip raw) = compressFile raw ∧
      ∃ ws, raw = rstrip raw ++ ws ∧ ∀ c ∈ ws, isSpace c = true := by
  have hidem : rstrip (rstrip raw) = rstrip raw := by
    unfold rstrip
    rw [List.reverse_reverse, dropWhile_idem]
  refine ⟨rfl, hidem, ?_, ?_⟩
  · show compressBits (rstrip (rstrip raw)) = compressBits (rstrip raw)
    rw [hidem]
  · refine ⟨(raw.reverse.takeWhile isSpace).reverse, ?_, ?_⟩
    · have h1 : raw.reverse.takeWhile isSpace ++ raw.reverse.dropWhile isSpace =
          raw.reverse := List.takeWhile_append_dropWhile isSpace raw.reverse
      have h2 := congrArg List.reverse h1
      rw [List.reverse_append, List.reverse_reverse] at h2
      exact h2.symm
    · intro c hc
      rw [List.mem_reverse] at hc
      exact List.mem_takeWhile_imp hc

end Huffman
